import Mathlib

/-!
Shallow embedding of the hierarchical Worley noise generator
(`src/main.rs`): the seeded cell hasher `cell_hash`, the per-cell center
derivation `worley_center`, the single-level 3x3 nearest-center search
`worley`, and the recursive multi-level evaluator `hierarchical_worley`.

Modelling conventions:
* `u64` values are `ℕ` taken modulo `2 ^ 64`; `i32` cell coordinates are
  unbounded `ℤ`, and the Rust cast `cell.x as i64 as u64` is the
  two's-complement reinterpretation `(z % 2 ^ 64).toNat`.
* `f32` positions and cell sizes are idealised as exact rationals `ℚ`;
  distances (which the Rust code obtains with `Vec2::length`, a square
  root) live in `ℝ` as `Real.sqrt` of a rational squared distance.
* The Rust selection loop compares distances (`best_dist.unwrap() > dist`).
  Since `Real.sqrt` is strictly monotone on nonnegative reals, comparing
  the squared distances selects exactly the same candidate, including the
  keep-first-on-tie behaviour; the computable core `worleyCore` therefore
  folds over squared distances and the square root is applied at the end.
* Rational division by zero is the Lean convention `q / 0 = 0`; theorems
  that touch a zero `cell_size` are stated at inputs where the Rust
  floating-point path observably agrees with this convention.
-/

/-- Two's-complement reinterpretation of a signed coordinate as a 64-bit
unsigned value, as in the Rust cast `cell.x as i64 as u64`. -/
def u64ofInt (z : ℤ) : ℕ := (z % (2 ^ 64 : ℤ)).toNat

/-- Left rotation of a 64-bit value, as in Rust `u64::rotate_left`. -/
def rotl64 (a r : ℕ) : ℕ := ((a <<< r) ||| (a >>> (64 - r))) % 2 ^ 64

/-- Hash of seed and cell coordinate, from `cell_hash` in `src/main.rs`:
multiply each input by a large odd constant (wrapping), then mix with a
rotate-XOR cascade. -/
def cell_hash (cell : ℤ × ℤ) (seed : ℕ) : ℕ :=
  let x0 := (u64ofInt cell.1 * 0xa0761d6478bd642f) % 2 ^ 64
  let y0 := (u64ofInt cell.2 * 0xe7037ed1a0b428db) % 2 ^ 64
  let s0 := (seed * 0x8ebc6af09c88c6e3) % 2 ^ 64
  let x1 := x0 ^^^ rotl64 y0 25
  let y1 := y0 ^^^ rotl64 s0 47
  let s1 := s0 ^^^ rotl64 x1 17
  s1 ^^^ y1

/-- Bit window used for the x axis of a cell center: the Rust expression
`(hash >> 12) as u32`, i.e. bits 12..43 of the hash. -/
def center_bits1 (h : ℕ) : ℕ := (h >>> 12) % 2 ^ 32

/-- Bit window used for the y axis of a cell center: the Rust expression
`(hash >> 32) as u32`, i.e. bits 32..63 of the hash (for a 64-bit hash the
truncation to 32 bits is the identity, and it is kept here verbatim). -/
def center_bits2 (h : ℕ) : ℕ := (h >>> 32) % 2 ^ 32

/-- Center of a worley cell, from `worley_center` in `src/main.rs`: each
axis is a 32-bit window of the hash divided by `u32::MAX = 2 ^ 32 - 1`. -/
def worley_center (cell : ℤ × ℤ) (seed : ℕ) : ℚ × ℚ :=
  let hash := cell_hash cell seed
  ((center_bits1 hash : ℚ) / (2 ^ 32 - 1), (center_bits2 hash : ℚ) / (2 ^ 32 - 1))

/-- World-space center point of a cell, from the loop body of `worley`:
`neighbor.as_vec2() * cell_size + center * cell_size` componentwise. -/
def worldCenter (cell : ℤ × ℤ) (cell_size : ℚ × ℚ) (seed : ℕ) : ℚ × ℚ :=
  ((cell.1 : ℚ) * cell_size.1 + (worley_center cell seed).1 * cell_size.1,
   (cell.2 : ℚ) * cell_size.2 + (worley_center cell seed).2 * cell_size.2)

/-- Squared Euclidean distance between two points; the Rust code computes
`(world_center - sample_pos).length()`, which is `Real.sqrt` of this. -/
def distSq (a b : ℚ × ℚ) : ℚ := (b.1 - a.1) ^ 2 + (b.2 - a.2) ^ 2

/-- Integer cell containing the sample, from `worley`:
`(sample_pos / cell_size).floor().as_ivec2()`. -/
def baseCell (sample_pos cell_size : ℚ × ℚ) : ℤ × ℤ :=
  (⌊sample_pos.1 / cell_size.1⌋, ⌊sample_pos.2 / cell_size.2⌋)

/-- Neighborhood offsets scanned by the double loop `for xo in -1..=1 {
for yo in -1..=1 { .. } }`, in iteration order. -/
def offsets : List (ℤ × ℤ) :=
  [(-1, -1), (-1, 0), (-1, 1), (0, -1), (0, 0), (0, 1), (1, -1), (1, 0), (1, 1)]

/-- Candidate list scanned by `worley`: each neighbor of the base cell
paired with the squared distance from the sample to its world center, in
loop iteration order. -/
def candidates (sample_pos cell_size : ℚ × ℚ) (seed : ℕ) : List ((ℤ × ℤ) × ℚ) :=
  offsets.map fun o =>
    let neighbor := ((baseCell sample_pos cell_size).1 + o.1,
                     (baseCell sample_pos cell_size).2 + o.2)
    (neighbor, distSq sample_pos (worldCenter neighbor cell_size seed))

/-- One step of the selection loop in `worley`: the running best is
replaced when `best_dist.is_none() || best_dist.unwrap() > dist`. The
comparison is on squared distances, which by strict monotonicity of the
square root agrees with the source comparison on distances. -/
def better (best : Option ((ℤ × ℤ) × ℚ)) (cand : (ℤ × ℤ) × ℚ) :
    Option ((ℤ × ℤ) × ℚ) :=
  match best with
  | none => some cand
  | some b => if cand.2 < b.2 then some cand else some b

/-- The selection loop of `worley`: fold the candidates in iteration
order starting from `best_cell = None, best_dist = None`, returning the
winning cell and its squared distance. -/
def worleyCore (sample_pos cell_size : ℚ × ℚ) (seed : ℕ) :
    Option ((ℤ × ℤ) × ℚ) :=
  (candidates sample_pos cell_size seed).foldl better none

/-- Single-level worley search, from `worley` in `src/main.rs`: the
winning neighbor together with its Euclidean distance to the sample. The
`none` branch mirrors the `unwrap` calls and is proved unreachable. -/
noncomputable def worley (sample_pos cell_size : ℚ × ℚ) (seed : ℕ) :
    (ℤ × ℤ) × ℝ :=
  match worleyCore sample_pos cell_size seed with
  | some (c, dsq) => (c, Real.sqrt (dsq : ℝ))
  | none => ((0, 0), 0)

/-- Cell size of the next finer level, from `hierarchical_worley`:
`cell_size / growth` componentwise. -/
def finerSize (cell_size : ℚ × ℚ) (growth : ℚ) : ℚ × ℚ :=
  (cell_size.1 / growth, cell_size.2 / growth)

/-- Re-projection of a winning finer-level cell into world space, from
`hierarchical_worley`: `cell.as_vec2() * finer_cell_size`. -/
def reproject (cell : ℤ × ℤ) (cell_size : ℚ × ℚ) : ℚ × ℚ :=
  ((cell.1 : ℚ) * cell_size.1, (cell.2 : ℚ) * cell_size.2)

/-- Hierarchical worley evaluator, from `hierarchical_worley` in
`src/main.rs`: depth 0 performs a direct search and returns its cell with
distance `0.0`; depth `d + 1` recurses at the finer cell size, re-projects
the finer winning cell as the new sample position, searches at the current
cell size, and blends `dist_o * 0.25 + dist * 0.75`. -/
noncomputable def hierarchical_worley (sample_pos cell_size : ℚ × ℚ)
    (seed : ℕ) (depth : ℕ) (growth : ℚ) : (ℤ × ℤ) × ℝ :=
  match depth with
  | 0 => ((worley sample_pos cell_size seed).1, 0)
  | d + 1 =>
    let finer_cell_size := finerSize cell_size growth
    let r := hierarchical_worley sample_pos finer_cell_size seed d growth
    let new_sample_pos := reproject r.1 finer_cell_size
    let ro := worley new_sample_pos cell_size seed
    (ro.1, ro.2 * 0.25 + r.2 * 0.75)

/-- Functional description of the selection loop: starting from a current
best candidate, keep the strictly closer of the two at each step, so the
first minimum encountered wins. `List.foldl better (some b) l` computes
`some (firstMin b l)`. -/
def firstMin (b : (ℤ × ℤ) × ℚ) : List ((ℤ × ℤ) × ℚ) → (ℤ × ℤ) × ℚ
  | [] => b
  | x :: xs => firstMin (if x.2 < b.2 then x else b) xs

/-- The value `f h` of a 64-bit input is determined by the bits of `h` in
the index set `S`: inputs agreeing on `S` get equal outputs. Used to state
which bit windows of the hash each center axis is derived from. -/
def determines (S : Finset ℕ) (f : ℕ → ℕ) : Prop :=
  ∀ h h' : ℕ, h < 2 ^ 64 → h' < 2 ^ 64 →
    (∀ i ∈ S, h.testBit i = h'.testBit i) → f h = f h'

/-! Helper lemmas about the selection loop. -/

lemma better_some (b x : (ℤ × ℤ) × ℚ) :
    better (some b) x = some (if x.2 < b.2 then x else b) := by
  rw [better]
  split <;> rfl

lemma foldl_better (l : List ((ℤ × ℤ) × ℚ)) (b : (ℤ × ℤ) × ℚ) :
    l.foldl better (some b) = some (firstMin b l) := by
  induction l generalizing b with
  | nil => rfl
  | cons x xs ih =>
    rw [List.foldl_cons, better_some, ih]
    rfl

lemma firstMin_spec (l : List ((ℤ × ℤ) × ℚ)) (b : (ℤ × ℤ) × ℚ) :
    ∃ l₁ l₂, b :: l = l₁ ++ firstMin b l :: l₂ ∧
      (∀ p ∈ l₁, (firstMin b l).2 < p.2) ∧
      ∀ p ∈ b :: l, (firstMin b l).2 ≤ p.2 := by
  induction l generalizing b with
  | nil => exact ⟨[], [], rfl, by simp, by simp [firstMin]⟩
  | cons x xs ih =>
    have hfm : firstMin b (x :: xs) = firstMin (if x.2 < b.2 then x else b) xs := rfl
    by_cases hx : x.2 < b.2
    · rw [hfm, if_pos hx]
      obtain ⟨l₁, l₂, heq, hlt, hle⟩ := ih x
      have hhead : (firstMin x xs).2 ≤ x.2 := hle x (List.mem_cons_self x xs)
      refine ⟨b :: l₁, l₂, ?_, ?_, ?_⟩
      · rw [List.cons_append, ← heq]
      · intro p hp
        rcases List.mem_cons.mp hp with rfl | hp
        · exact lt_of_le_of_lt hhead hx
        · exact hlt p hp
      · intro p hp
        rcases List.mem_cons.mp hp with rfl | hp
        · exact le_of_lt (lt_of_le_of_lt hhead hx)
        · exact hle p hp
    · rw [hfm, if_neg hx]
      obtain ⟨l₁, l₂, heq, hlt, hle⟩ := ih b
      have hble : (firstMin b xs).2 ≤ b.2 := hle b (List.mem_cons_self b xs)
      cases l₁ with
      | nil =>
        simp only [List.nil_append] at heq
        obtain ⟨hb, hxs⟩ := List.cons.inj heq
        refine ⟨[], x :: xs, ?_, by simp, ?_⟩
        · rw [List.nil_append, ← hb]
        · intro p hp
          rcases List.mem_cons.mp hp with rfl | hp
          · exact hble
          · rcases List.mem_cons.mp hp with rfl | hp
            · exact le_trans hble (le_of_not_lt hx)
            · exact hle p (List.mem_cons_of_mem b hp)
      | cons q t =>
        simp only [List.cons_append] at heq
        obtain ⟨hq, hxs⟩ := List.cons.inj heq
        have hqlt : (firstMin b xs).2 < q.2 := hlt q (List.mem_cons_self q t)
        refine ⟨b :: x :: t, l₂, ?_, ?_, ?_⟩
        · rw [List.cons_append, List.cons_append, ← hxs]
        · intro p hp
          rcases List.mem_cons.mp hp with rfl | hp
          · exact lt_of_lt_of_eq hqlt (congrArg Prod.snd hq).symm
          · rcases List.mem_cons.mp hp with rfl | hp
            · exact lt_of_lt_of_le (lt_of_lt_of_eq hqlt (congrArg Prod.snd hq).symm)
                (le_of_not_lt hx)
            · exact hlt p (List.mem_cons_of_mem q hp)
        · intro p hp
          rcases List.mem_cons.mp hp with rfl | hp
          · exact hble
          · rcases List.mem_cons.mp hp with rfl | hp
            · exact le_trans hble (le_of_not_lt hx)
            · exact hle p (List.mem_cons_of_mem b hp)

lemma candidates_cons (sample_pos cell_size : ℚ × ℚ) (seed : ℕ) :
    ∃ x xs, candidates sample_pos cell_size seed = x :: xs :=
  ⟨_, _, rfl⟩

lemma worleyCore_eq_firstMin (sample_pos cell_size : ℚ × ℚ) (seed : ℕ)
    (x : (ℤ × ℤ) × ℚ) (xs : List ((ℤ × ℤ) × ℚ))
    (h : candidates sample_pos cell_size seed = x :: xs) :
    worleyCore sample_pos cell_size seed = some (firstMin x xs) := by
  rw [worleyCore, h, List.foldl_cons]
  exact foldl_better xs x

lemma worley_of_core (sample_pos cell_size : ℚ × ℚ) (seed : ℕ)
    (c : ℤ × ℤ) (dsq : ℚ) (h : worleyCore sample_pos cell_size seed = some (c, dsq)) :
    worley sample_pos cell_size seed = (c, Real.sqrt (dsq : ℝ)) := by
  unfold worley
  rw [h]

lemma distSq_nonneg (a b : ℚ × ℚ) : 0 ≤ distSq a b :=
  add_nonneg (sq_nonneg _) (sq_nonneg _)

lemma mem_candidates_nonneg (sample_pos cell_size : ℚ × ℚ) (seed : ℕ)
    (p : (ℤ × ℤ) × ℚ) (hp : p ∈ candidates sample_pos cell_size seed) :
    0 ≤ p.2 := by
  obtain ⟨o, _, rfl⟩ := List.mem_map.mp hp
  exact distSq_nonneg _ _

lemma worley_snd_nonneg (sample_pos cell_size : ℚ × ℚ) (seed : ℕ) :
    0 ≤ (worley sample_pos cell_size seed).2 := by
  rcases h : worleyCore sample_pos cell_size seed with _ | ⟨c, dsq⟩
  · unfold worley
    rw [h]
  · unfold worley
    rw [h]
    exact Real.sqrt_nonneg _

/-- C1: for every sample position, cell size, seed and growth, at depth
`d > 0` the distance returned by `hierarchical_worley` is exactly the
blend `0.25 * coarser + 0.75 * finer`, where the coarser distance comes
from the `worley` search at the current cell size (at the re-projected
sample) and the finer distance from the recursive call at
`cell_size / growth` and depth `d - 1`; the blend is applied once per
recursive step. -/
theorem hierarchical_blend (sample_pos cell_size : ℚ × ℚ) (seed : ℕ) (d : ℕ)
    (growth : ℚ) (hd : 0 < d) :
    (hierarchical_worley sample_pos cell_size seed d growth).2 =
      0.25 * (worley (reproject
          (hierarchical_worley sample_pos (finerSize cell_size growth) seed
            (d - 1) growth).1
          (finerSize cell_size growth)) cell_size seed).2 +
      0.75 * (hierarchical_worley sample_pos (finerSize cell_size growth) seed
          (d - 1) growth).2 := by
  obtain ⟨e, rfl⟩ : ∃ e, d = e + 1 := ⟨d - 1, (Nat.succ_pred_eq_of_pos hd).symm⟩
  simp only [hierarchical_worley, Nat.add_sub_cancel]
  ring

/-- Witness for C1: the blend equation at a concrete input with depth 1. -/
theorem hierarchical_blend_witness :
    (hierarchical_worley (0, 0) (1, 1) 0 1 1).2 =
      0.25 * (worley (reproject
          (hierarchical_worley (0, 0) (finerSize (1, 1) 1) 0 0 1).1
          (finerSize (1, 1) 1)) (1, 1) 0).2 +
      0.75 * (hierarchical_worley (0, 0) (finerSize (1, 1) 1) 0 0 1).2 :=
  hierarchical_blend (0, 0) (1, 1) 0 1 1 (by norm_num)

/-- C2: at depth 0, `hierarchical_worley` performs a direct single-level
`worley` search and returns the winning cell of that search paired with
the sentinel distance 0; consequently the blend at depth 1 reduces to
`0.25` times the depth-1 `worley` distance alone. -/
theorem hierarchical_base (sample_pos cell_size : ℚ × ℚ) (seed : ℕ) (growth : ℚ) :
    hierarchical_worley sample_pos cell_size seed 0 growth =
      ((worley sample_pos cell_size seed).1, 0) ∧
    (hierarchical_worley sample_pos cell_size seed 1 growth).2 =
      0.25 * (worley (reproject (worley sample_pos (finerSize cell_size growth) seed).1
        (finerSize cell_size growth)) cell_size seed).2 := by
  constructor
  · rfl
  · simp only [hierarchical_worley]
    ring

/-- C7: the distance returned by `worley` and by `hierarchical_worley` is
nonnegative, for every sample position, cell size, seed, depth and growth
factor. -/
theorem distances_nonneg (sample_pos cell_size : ℚ × ℚ) (seed d : ℕ) (growth : ℚ) :
    0 ≤ (worley sample_pos cell_size seed).2 ∧
    0 ≤ (hierarchical_worley sample_pos cell_size seed d growth).2 := by
  refine ⟨worley_snd_nonneg _ _ _, ?_⟩
  induction d generalizing cell_size with
  | zero => exact le_refl 0
  | succ e ih =>
    simp only [hierarchical_worley]
    exact add_nonneg (mul_nonneg (worley_snd_nonneg _ _ _) (by norm_num))
      (mul_nonneg (ih _) (by norm_num))

/-- C8: `worley_center` and `hierarchical_worley` are deterministic pure
functions of their explicit arguments: identical arguments give identical
results. -/
theorem evaluator_deterministic (c₁ c₂ : ℤ × ℤ) (s₁ s₂ : ℕ)
    (sp₁ sp₂ cs₁ cs₂ : ℚ × ℚ) (sd₁ sd₂ d₁ d₂ : ℕ) (g₁ g₂ : ℚ)
    (hc : c₁ = c₂) (hs : s₁ = s₂) (hsp : sp₁ = sp₂) (hcs : cs₁ = cs₂)
    (hsd : sd₁ = sd₂) (hd : d₁ = d₂) (hg : g₁ = g₂) :
    worley_center c₁ s₁ = worley_center c₂ s₂ ∧
    hierarchical_worley sp₁ cs₁ sd₁ d₁ g₁ = hierarchical_worley sp₂ cs₂ sd₂ d₂ g₂ := by
  subst hc hs hsp hcs hsd hd hg
  exact ⟨rfl, rfl⟩

/-- Witness for C8: determinism instantiated at concrete arguments. -/
theorem evaluator_deterministic_witness :
    worley_center (3, 4) 7 = worley_center (3, 4) 7 ∧
    hierarchical_worley (1, 2) (3, 4) 7 2 2 = hierarchical_worley (1, 2) (3, 4) 7 2 2 :=
  evaluator_deterministic (3, 4) (3, 4) 7 7 (1, 2) (1, 2) (3, 4) (3, 4) 7 7 2 2 2 2
    rfl rfl rfl rfl rfl rfl rfl

/-- C10: the 3x3 search of `worley` is total: the scanned candidate list
always has 9 entries and the selection loop always ends with `Some` for
both the best cell and the best distance, so the final unwraps cannot
fail. -/
theorem search_total (sample_pos cell_size : ℚ × ℚ) (seed : ℕ) :
    (candidates sample_pos cell_size seed).length = 9 ∧
    ∃ c dsq, worleyCore sample_pos cell_size seed = some (c, dsq) := by
  obtain ⟨x, xs, hx⟩ := candidates_cons sample_pos cell_size seed
  refine ⟨by simp [candidates, offsets], (firstMin x xs).1, (firstMin x xs).2, ?_⟩
  rw [worleyCore_eq_firstMin sample_pos cell_size seed x xs hx]

/-- C4: `worley` scans exactly the 9 neighbors of the floor-division base
cell in loop order (the `candidates` list), and returns the first
candidate attaining the minimum Euclidean distance from the sample to the
candidate's world-space center, together with that distance: the result
appears in the candidate list, its distance is a lower bound for all nine
distances, and every candidate scanned before it is strictly farther. -/
theorem worley_minimal (sample_pos cell_size : ℚ × ℚ) (seed : ℕ)
    (h1 : 0 < cell_size.1) (h2 : 0 < cell_size.2) :
    ∃ (l₁ : List ((ℤ × ℤ) × ℚ)) (c : ℤ × ℤ) (dsq : ℚ) (l₂ : List ((ℤ × ℤ) × ℚ)),
      candidates sample_pos cell_size seed = l₁ ++ (c, dsq) :: l₂ ∧
      worley sample_pos cell_size seed = (c, Real.sqrt (dsq : ℝ)) ∧
      (∀ p ∈ candidates sample_pos cell_size seed,
        Real.sqrt (dsq : ℝ) ≤ Real.sqrt ((p.2 : ℚ) : ℝ)) ∧
      ∀ p ∈ l₁, Real.sqrt (dsq : ℝ) < Real.sqrt ((p.2 : ℚ) : ℝ) := by
  obtain ⟨x, xs, hx⟩ := candidates_cons sample_pos cell_size seed
  obtain ⟨l₁, l₂, heq, hlt, hle⟩ := firstMin_spec xs x
  have hcore : worleyCore sample_pos cell_size seed =
      some ((firstMin x xs).1, (firstMin x xs).2) :=
    worleyCore_eq_firstMin sample_pos cell_size seed x xs hx
  have hmem : firstMin x xs ∈ candidates sample_pos cell_size seed := by
    rw [hx, heq]
    exact List.mem_append_right _ (List.mem_cons_self _ _)
  have hm0 : 0 ≤ (firstMin x xs).2 :=
    mem_candidates_nonneg sample_pos cell_size seed _ hmem
  refine ⟨l₁, (firstMin x xs).1, (firstMin x xs).2, l₂, ?_, ?_, ?_, ?_⟩
  · rw [hx, heq]
  · exact worley_of_core sample_pos cell_size seed _ _ hcore
  · intro p hp
    rw [hx] at hp
    exact Real.sqrt_le_sqrt (by exact_mod_cast hle p hp)
  · intro p hp
    exact Real.sqrt_lt_sqrt (by exact_mod_cast hm0) (by exact_mod_cast hlt p hp)

/-- Witness for C4: the characterization instantiated at a concrete
sample, cell size and seed, with the positivity hypotheses discharged. -/
theorem worley_minimal_witness :
    ∃ (l₁ : List ((ℤ × ℤ) × ℚ)) (c : ℤ × ℤ) (dsq : ℚ) (l₂ : List ((ℤ × ℤ) × ℚ)),
      candidates (1/10, 1/10) (4, 4) 10 = l₁ ++ (c, dsq) :: l₂ ∧
      worley (1/10, 1/10) (4, 4) 10 = (c, Real.sqrt (dsq : ℝ)) ∧
      (∀ p ∈ candidates (1/10, 1/10) (4, 4) 10,
        Real.sqrt (dsq : ℝ) ≤ Real.sqrt ((p.2 : ℚ) : ℝ)) ∧
      ∀ p ∈ l₁, Real.sqrt (dsq : ℝ) < Real.sqrt ((p.2 : ℚ) : ℝ) :=
  worley_minimal (1/10, 1/10) (4, 4) 10 (by norm_num) (by norm_num)

/-- C3 counterexample: in the concrete scenario seed 10, cell size (4,4),
depth 0, sample (0.1, 0.1), the distance returned by
`hierarchical_worley` is the sentinel 0, while the Euclidean distance
from the sample to the scaled center of cell (0,0) is strictly positive,
so the returned distance is not that Euclidean distance. -/
theorem hierarchical_scenario_counter :
    (hierarchical_worley (1/10, 1/10) (4, 4) 10 0 1).2 = 0 ∧
    0 < Real.sqrt ((distSq (1/10, 1/10) (worldCenter (0, 0) (4, 4) 10) : ℚ) : ℝ) := by
  constructor
  · rfl
  · apply Real.sqrt_pos.mpr
    have h00 : cell_hash 0 10 = 8156974160453880437 := by decide
    have h : (0 : ℚ) < distSq (1/10, 1/10) (worldCenter (0, 0) (4, 4) 10) := by
      norm_num [distSq, worldCenter, worley_center, center_bits1, center_bits2,
        Nat.shiftRight_eq_div_pow, h00]
    exact_mod_cast h

/-- C3 amended: in the concrete scenario the winning cell is (0,0) as
claimed, but the returned distance is the depth-0 sentinel 0, not the
Euclidean distance to the scaled cell center. -/
theorem hierarchical_scenario (growth : ℚ) :
    hierarchical_worley (1/10, 1/10) (4, 4) 10 0 growth = ((0, 0), 0) := by
  have hmm : cell_hash (-1, -1) 10 = 9485846355559127870 := by decide
  have hm0 : cell_hash (-1, 0) 10 = 12971609706690147686 := by decide
  have hm1 : cell_hash (-1, 1) 10 = 9485841957512616767 := by decide
  have h0m : cell_hash (0, -1) 10 = 5085533223072277549 := by decide
  have h00 : cell_hash 0 10 = 8156974160453880437 := by decide
  have h01 : cell_hash (0, 1) 10 = 5085537621118788652 := by decide
  have h1m : cell_hash (1, -1) 10 = 8960897718150292673 := by decide
  have h10 : cell_hash (1, 0) 10 = 5475134367019535001 := by decide
  have h11 : cell_hash 1 10 = 8960902116196803776 := by decide
  have hbase : baseCell (1/10, 1/10) (4, 4) = (0, 0) := by
    unfold baseCell
    norm_num [Int.floor_eq_zero_iff, Set.mem_Ico]
  have hcore : worleyCore (1/10, 1/10) (4, 4) 10 =
      some ((0, 0), 29400973219428039797/7378697626047846810) := by
    rw [worleyCore, candidates, offsets]
    simp only [List.map_cons, List.map_nil, hbase, List.foldl_cons, List.foldl_nil]
    norm_num [worldCenter, distSq, worley_center, center_bits1, center_bits2,
      Nat.shiftRight_eq_div_pow, better, hmm, hm0, hm1, h0m, h00, h01, h1m, h10, h11]
  have hw := worley_of_core (1/10, 1/10) (4, 4) 10 (0, 0)
    (29400973219428039797/7378697626047846810) hcore
  show ((worley (1/10, 1/10) (4, 4) 10).1, (0 : ℝ)) = ((0, 0), 0)
  rw [hw]

/-- C5 counterexample: for cell (0,0) and seed 16931676090847926764 the
x component of `worley_center` equals 1 exactly, so the components do not
always lie in the half-open interval [0,1). -/
theorem center_range_counter :
    (worley_center (0, 0) 16931676090847926764).1 = 1 := by
  have h : cell_hash (0, 0) 16931676090847926764 = 17592186040320 := by decide
  rw [worley_center, h]
  norm_num [center_bits1, center_bits2, Nat.shiftRight_eq_div_pow]

/-- C5 amended: for every cell and seed both components of
`worley_center` lie in the closed interval [0,1]: each 32-bit window is
at most `2 ^ 32 - 1` and is divided by exactly `2 ^ 32 - 1`, so the upper
bound 1 is attained (see the counterexample) rather than excluded. -/
theorem center_range (cell : ℤ × ℤ) (seed : ℕ) :
    0 ≤ (worley_center cell seed).1 ∧ (worley_center cell seed).1 ≤ 1 ∧
    0 ≤ (worley_center cell seed).2 ∧ (worley_center cell seed).2 ≤ 1 := by
  have key : ∀ n : ℕ, 0 ≤ ((n % 2 ^ 32 : ℕ) : ℚ) / (2 ^ 32 - 1) ∧
      ((n % 2 ^ 32 : ℕ) : ℚ) / (2 ^ 32 - 1) ≤ 1 := by
    intro n
    have hlt : n % 2 ^ 32 ≤ 2 ^ 32 - 1 := by
      have := Nat.mod_lt n (show 0 < 2 ^ 32 by norm_num)
      omega
    refine ⟨by positivity, ?_⟩
    rw [div_le_one (by norm_num)]
    calc ((n % 2 ^ 32 : ℕ) : ℚ) ≤ ((2 ^ 32 - 1 : ℕ) : ℚ) := by exact_mod_cast hlt
      _ = 2 ^ 32 - 1 := by norm_num
  simp only [worley_center, center_bits1, center_bits2]
  exact ⟨(key _).1, (key _).2, (key _).1, (key _).2⟩

/-- C6 counterexample: the two center axes are not derived from disjoint
bit ranges of the hash: any pair of bit-index sets that determine
`center_bits1` and `center_bits2` respectively must both contain bit 32
(flipping it changes both windows), so no disjoint pair exists. -/
theorem center_windows_counter :
    ¬ ∃ S₁ S₂ : Finset ℕ, Disjoint S₁ S₂ ∧
      determines S₁ center_bits1 ∧ determines S₂ center_bits2 := by
  rintro ⟨S₁, S₂, hdis, hd₁, hd₂⟩
  have hbit : ∀ i : ℕ, i ≠ 32 → Nat.testBit (2 ^ 32) i = Nat.testBit 0 i := by
    intro i hi
    rw [Nat.zero_testBit, Nat.testBit_two_pow]
    simp only [decide_eq_false_iff_not]
    exact fun he => hi he.symm
  have h₁ : (32 : ℕ) ∈ S₁ := by
    by_contra hm
    have heq := hd₁ (2 ^ 32) 0 (by norm_num) (by norm_num)
      (fun i hi => hbit i (fun he => hm (he ▸ hi)))
    exact absurd heq (by decide)
  have h₂ : (32 : ℕ) ∈ S₂ := by
    by_contra hm
    have heq := hd₂ (2 ^ 32) 0 (by norm_num) (by norm_num)
      (fun i hi => hbit i (fun he => hm (he ▸ hi)))
    exact absurd heq (by decide)
  exact absurd h₂ (Finset.disjoint_left.mp hdis h₁)

/-- C6 amended: the x axis window is bits 12..43 of the hash and the y
axis window is bits 32..63; each window does determine its axis, but the
two windows overlap in bits 32..43 rather than being disjoint. -/
theorem center_windows :
    determines (Finset.Icc 12 43) center_bits1 ∧
    determines (Finset.Icc 32 63) center_bits2 ∧
    ¬ Disjoint (Finset.Icc (12 : ℕ) 43) (Finset.Icc (32 : ℕ) 63) := by
  refine ⟨?_, ?_, ?_⟩
  · intro h h' _ _ hagree
    unfold center_bits1
    apply Nat.eq_of_testBit_eq
    intro i
    rw [Nat.testBit_mod_two_pow, Nat.testBit_mod_two_pow,
      Nat.testBit_shiftRight, Nat.testBit_shiftRight]
    by_cases hi : i < 32
    · rw [hagree (12 + i) (Finset.mem_Icc.mpr ⟨by omega, by omega⟩)]
    · simp [hi]
  · intro h h' _ _ hagree
    unfold center_bits2
    apply Nat.eq_of_testBit_eq
    intro i
    rw [Nat.testBit_mod_two_pow, Nat.testBit_mod_two_pow,
      Nat.testBit_shiftRight, Nat.testBit_shiftRight]
    by_cases hi : i < 32
    · rw [hagree (32 + i) (Finset.mem_Icc.mpr ⟨by omega, by omega⟩)]
    · simp [hi]
  · rw [Finset.not_disjoint_iff]
    exact ⟨32, Finset.mem_Icc.mpr ⟨by norm_num, by norm_num⟩,
      Finset.mem_Icc.mpr ⟨le_refl 32, by norm_num⟩⟩

/-- Witness for C6 amended: the window property applied at concrete
inputs agreeing on each window (bit 44 resp. bits 0..2 are outside). -/
theorem center_windows_witness :
    center_bits1 5 = center_bits1 17592186044421 ∧
    center_bits2 7 = center_bits2 39 :=
  ⟨center_windows.1 5 17592186044421 (by norm_num) (by norm_num) (by decide),
   center_windows.2.1 7 39 (by norm_num) (by norm_num) (by decide)⟩

/-- C9 counterexample: with a non-positive cell size (0,0), `worley` and
`hierarchical_worley` do not fail: at sample (0,0) and seed 0 they
silently return the first scanned neighbor (-1,-1) with distance 0 — the
functions have no error path at all. -/
theorem no_validation_counter :
    worley (0, 0) (0, 0) 0 = ((-1, -1), 0) ∧
    hierarchical_worley (0, 0) (0, 0) 0 0 1 = ((-1, -1), 0) := by
  have hcore : worleyCore (0, 0) (0, 0) 0 = some ((-1, -1), 0) := by
    rw [worleyCore, candidates, offsets]
    norm_num [baseCell, worldCenter, distSq, better]
  have hw := worley_of_core (0, 0) (0, 0) 0 (-1, -1) 0 hcore
  rw [Rat.cast_zero, Real.sqrt_zero] at hw
  refine ⟨hw, ?_⟩
  show ((worley (0, 0) (0, 0) 0).1, (0 : ℝ)) = ((-1, -1), 0)
  rw [hw]

/-- C9 amended: no validation of `cell_size` exists: for every seed and
growth, at the degenerate cell size (0,0) (non-positive components) the
search silently returns the ordinary result ((-1,-1), 0) at sample (0,0)
— every candidate distance degenerates to 0 and the first scanned
neighbor wins — instead of failing fast with a precondition error. -/
theorem no_validation (seed : ℕ) (growth : ℚ) :
    worley (0, 0) (0, 0) seed = ((-1, -1), 0) ∧
    hierarchical_worley (0, 0) (0, 0) seed 0 growth = ((-1, -1), 0) := by
  have hcore : worleyCore (0, 0) (0, 0) seed = some ((-1, -1), 0) := by
    rw [worleyCore, candidates, offsets]
    norm_num [baseCell, worldCenter, distSq, better]
  have hw := worley_of_core (0, 0) (0, 0) seed (-1, -1) 0 hcore
  rw [Rat.cast_zero, Real.sqrt_zero] at hw
  refine ⟨hw, ?_⟩
  show ((worley (0, 0) (0, 0) seed).1, (0 : ℝ)) = ((-1, -1), 0)
  rw [hw]
